import Mathlib

/-!
Verification of the pycity_scheduling fork: the Exchange ADMM coordinator
(`algorithms/exchange_admm_algorithm.py`) and the CurtailableLoad
rolling-horizon constraint updater (`classes/curtailable_load.py`).

Conventions.  Python floats are modelled as exact rationals (`ℚ`).
Euclidean norms (`numpy.linalg.norm`) are represented by their squares,
which are rational; squaring is strictly monotone on the nonnegative reals,
so equalities and comparisons of norms are faithfully stated on the squares
(convergence thresholds are likewise given as squares, `⊤` standing for the
float `+inf`).  Gurobi's `GRB.INFINITY` right-hand sides are modelled with
`⊥ : WithBot ℚ` for `≥`-constraints and `⊤ : WithTop ℚ` for
`≤`-constraints.
-/

namespace PyCity

/-- The objective expression built by `ExchangeADMM._add_objective` for entity
`i` (exchange_admm_algorithm.py lines 105-123): `beta * entity.get_objective()`,
plus the quadratic term `rho/2 * p_el_vars[t]^2` for every `t`, plus the
expanded linear penalty `rho * penalty[t] * p_el_vars[t]`, where the penalty
is `-last_p_el_schedules[t] - xs_[t] - us[t]` for entity `0` and
`-last_p_el_schedules[t] + xs_[t] + us[t]` for every other entity. -/
def admmObjective (T : ℕ) (rho beta : ℚ) (localObj : (Fin T → ℚ) → ℚ) (i : ℕ)
    (lastP xs us p : Fin T → ℚ) : ℚ :=
  beta * localObj p + (∑ t, rho / 2 * p t * p t) +
    (if i = 0 then ∑ t, rho * (-lastP t - xs t - us t) * p t
     else ∑ t, rho * (-lastP t + xs t + us t) * p t)

/-- The augmentation formula exactly as claim C1 states it:
`local_objective(p) + rho/2 * ‖p‖^2 + rho * ⟨sign(i) * (x + u), p⟩` with no
other terms.  Defined from the claim's words, for comparison with
`admmObjective` (which is translated from the source). -/
def admmObjectiveSpec (T : ℕ) (rho : ℚ) (localObj : (Fin T → ℚ) → ℚ) (i : ℕ)
    (xs us p : Fin T → ℚ) : ℚ :=
  localObj p + (∑ t, rho / 2 * p t * p t) +
    ∑ t, rho * ((if i = 0 then (-1 : ℚ) else 1) * (xs t + us t)) * p t

/-- C1 (counterexample): the objective pushed into a node is not the formula
`local_objective(p) + rho/2 ‖p‖² + rho ⟨sign(i)(x+u), p⟩` claimed by the spec:
with `T = 1`, `rho = 2`, `beta = 1`, zero local objective, entity `i = 1`,
last schedule `1`, `x = u = 0` and `p = 1`, the code's expression evaluates to
`-1` while the claimed formula evaluates to `1` (the code's penalty also
carries the `-last_p_el_schedules` cross term). -/
theorem admmObjective_differs_from_spec_formula :
    admmObjective 1 2 1 (fun _ => 0) 1 (fun _ => 1) (fun _ => 0) (fun _ => 0)
        (fun _ => 1) ≠
      admmObjectiveSpec 1 2 (fun _ => 0) 1 (fun _ => 0) (fun _ => 0)
        (fun _ => 1) := by
  norm_num [admmObjective, admmObjectiveSpec, Fin.sum_univ_one]

/-- C1 (amended): for every entity `i` the objective pushed into node `i`
equals `beta * local_objective(p) + rho/2 * ‖p‖² +
rho * ⟨sign(i) * (x + u) - lastP, p⟩`, where `sign(0) = -1` and `sign(i) = 1`
for `i ≠ 0`; besides the last-schedule cross term `-rho * ⟨lastP, p⟩` (and the
`beta` weight on the local objective, which is `1` by default) no further
terms appear in the augmentation. -/
theorem admmObjective_closed_form (T : ℕ) (rho beta : ℚ)
    (localObj : (Fin T → ℚ) → ℚ) (i : ℕ) (lastP xs us p : Fin T → ℚ) :
    admmObjective T rho beta localObj i lastP xs us p =
      beta * localObj p + (∑ t, rho / 2 * p t * p t) +
        ∑ t, rho * ((if i = 0 then (-1 : ℚ) else 1) * (xs t + us t) - lastP t)
          * p t := by
  unfold admmObjective
  rcases eq_or_ne i 0 with h | h
  · rw [if_pos h]
    congr 1
    refine Finset.sum_congr rfl fun t _ => ?_
    rw [if_pos h]
    ring
  · rw [if_neg h]
    congr 1
    refine Finset.sum_congr rfl fun t _ => ?_
    rw [if_neg h]
    ring

/-- The per-iteration state of `ExchangeADMM`: the `params` entries `p_el`,
`x_` and `u` (exchange_admm_algorithm.py lines 143-152, zero-filled before the
first iteration) together with the result lists `r_norms` and `s_norms`
(created empty by `_presolve`, lines 131-132).  The algorithm coordinates
`n + 1` entities (entity `0` is the city district) over an operation window of
`T` steps; the lists hold the squares of the appended norms. -/
structure ExchangeState (n T : ℕ) where
  pEl : Fin (n + 1) → Fin T → ℚ
  xs : Fin T → ℚ
  us : Fin T → ℚ
  rNormSqs : List ℚ
  sNormSqs : List ℚ

/-- The incentive-signal update of `ExchangeADMM._iteration` (line 173):
`x_ = (-p_el_schedules[0] + sum(p_el_schedules[1:])) / len(self._entities)`. -/
def admmXUpdate (n T : ℕ) (p : Fin (n + 1) → Fin T → ℚ) : Fin T → ℚ :=
  fun t => (-(p 0 t) + ∑ i : Fin n, p i.succ t) / (n + 1)

/-- The dual-residual vectors of `ExchangeADMM._iteration` (lines 180-183):
`s[0] = -rho * (-p[0] + last_p_el[0] + last_x_ - x_)` and
`s[i] = -rho * (p[i] - last_p_el[i] + last_x_ - x_)` for `i ≥ 1`. -/
def admmDual (n T : ℕ) (rho : ℚ) (p lastP : Fin (n + 1) → Fin T → ℚ)
    (lastX xNew : Fin T → ℚ) : Fin (n + 1) → Fin T → ℚ :=
  fun i t =>
    if i = 0 then -rho * (-(p 0 t) + lastP 0 t + lastX t - xNew t)
    else -rho * (p i t - lastP i t + lastX t - xNew t)

/-- One iteration of `ExchangeADMM._iteration` (lines 140-193).  The solver
step (an external collaborator) is abstracted as the oracle `solve`, which
receives exactly the data pushed into the nodes (`last_p_el_schedules`,
`xs_`, `us`; lines 159-167) and returns the freshly extracted
`p_el_schedules`.  The iteration appends `(sqrt(N) * ‖x_‖)²` to `r_norms` and
`‖s‖²` to `s_norms` (lines 178-184, squared as explained in the header) and
stores `p_el := p_el_schedules`, `x_ := x_new`, `u += x_new`
(lines 189-191). -/
def admmIteration (n T : ℕ) (rho : ℚ)
    (solve : (Fin (n + 1) → Fin T → ℚ) → (Fin T → ℚ) → (Fin T → ℚ) →
      Fin (n + 1) → Fin T → ℚ)
    (st : ExchangeState n T) : ExchangeState n T :=
  let p := solve st.pEl st.xs st.us
  let xNew := admmXUpdate n T p
  let s := admmDual n T rho p st.pEl st.xs xNew
  { pEl := p
    xs := xNew
    us := fun t => st.us t + xNew t
    rNormSqs := st.rNormSqs ++ [(n + 1 : ℚ) * ∑ t, xNew t * xNew t]
    sNormSqs := st.sNormSqs ++ [∑ i, ∑ t, s i t * s i t] }

/-- C2: in every iteration, after all nodes are solved, the new consensus
signal is `x_new = (-p[0] + Σ_{i ≥ 1} p[i]) / numEntities` where `p` are the
freshly extracted trajectories; the stored state afterwards satisfies
`x := x_new`, `u := u + x_new`, and the stored last schedules are the fresh
`p`. -/
theorem admmIteration_consensus_update (n T : ℕ) (rho : ℚ)
    (solve : (Fin (n + 1) → Fin T → ℚ) → (Fin T → ℚ) → (Fin T → ℚ) →
      Fin (n + 1) → Fin T → ℚ)
    (st : ExchangeState n T) :
    (admmIteration n T rho solve st).xs =
        (fun t => (-(solve st.pEl st.xs st.us 0 t) +
          ∑ i : Fin n, solve st.pEl st.xs st.us i.succ t) / (n + 1)) ∧
      (admmIteration n T rho solve st).us =
        (fun t => st.us t + (admmIteration n T rho solve st).xs t) ∧
      (admmIteration n T rho solve st).pEl = solve st.pEl st.xs st.us :=
  ⟨rfl, rfl, rfl⟩

/-- Helper: the last element of `l ++ [a]` is `a` (Python `list.append`
followed by `[-1]`). -/
theorem getLast?_append_singleton {α : Type} (l : List α) (a : α) :
    (l ++ [a]).getLast? = some a := by
  induction l with
  | nil => rfl
  | cons b l ih =>
    rw [List.cons_append]
    cases hl : l ++ [a] with
    | nil => exact absurd hl (by simp)
    | cons c l2 => rw [List.getLast?_cons_cons, ← hl, ih]

/-- C3: the squared norm appended to `r_norms` equals
`numEntities * ‖x_new‖²` (i.e. the appended value is `sqrt(N) * ‖x_new‖`),
and the squared norm appended to `s_norms` is the squared Euclidean norm of
the stacked vectors `s[i] = -rho * (sign(i)*p[i] - sign(i)*lastP[i] + lastX -
x_new)` with `sign(0) = -1` and `sign(i) = 1` for `i ≥ 1`. -/
theorem admmIteration_residual_norms (n T : ℕ) (rho : ℚ)
    (solve : (Fin (n + 1) → Fin T → ℚ) → (Fin T → ℚ) → (Fin T → ℚ) →
      Fin (n + 1) → Fin T → ℚ)
    (st : ExchangeState n T) :
    (admmIteration n T rho solve st).rNormSqs.getLast? =
        some ((n + 1 : ℚ) *
          ∑ t, admmXUpdate n T (solve st.pEl st.xs st.us) t ^ 2) ∧
      (admmIteration n T rho solve st).sNormSqs.getLast? =
        some (∑ i, ∑ t,
          (-rho * ((if i = (0 : Fin (n + 1)) then (-1 : ℚ) else 1) *
              solve st.pEl st.xs st.us i t -
            (if i = (0 : Fin (n + 1)) then (-1 : ℚ) else 1) * st.pEl i t +
            st.xs t - admmXUpdate n T (solve st.pEl st.xs st.us) t)) ^ 2) := by
  constructor
  · rw [show (admmIteration n T rho solve st).rNormSqs =
        st.rNormSqs ++ [(n + 1 : ℚ) *
          ∑ t, admmXUpdate n T (solve st.pEl st.xs st.us) t *
            admmXUpdate n T (solve st.pEl st.xs st.us) t] from rfl,
      getLast?_append_singleton]
    congr 1
    refine congrArg _ (Finset.sum_congr rfl fun t _ => ?_)
    ring
  · rw [show (admmIteration n T rho solve st).sNormSqs =
        st.sNormSqs ++ [∑ i, ∑ t,
          admmDual n T rho (solve st.pEl st.xs st.us) st.pEl st.xs
              (admmXUpdate n T (solve st.pEl st.xs st.us)) i t *
            admmDual n T rho (solve st.pEl st.xs st.us) st.pEl st.xs
              (admmXUpdate n T (solve st.pEl st.xs st.us)) i t] from rfl,
      getLast?_append_singleton]
    congr 1
    refine Finset.sum_congr rfl fun i _ => Finset.sum_congr rfl fun t _ => ?_
    unfold admmDual
    split_ifs with h
    · rw [h]
      ring
    · ring

/-- Modelled from the spec: the iteration-cap test of the base
`IterationAlgorithm` (its module `algorithms/algorithm.py` is not among the
sources; spec §4.1: "stops on `isTerminal() == true` or iteration count
reaching `maxIterations`", the cap test being the part evaluated first by
`_is_last_iteration`).  `k` is the number of completed iterations. -/
def capReached (maxIter k : ℕ) : Bool := decide (maxIter ≤ k)

/-- `ExchangeADMM._is_last_iteration` (exchange_admm_algorithm.py lines
135-138): first the superclass cap test, which short-circuits to `True`;
otherwise `r_norms[-1] <= eps_primal and s_norms[-1] <= eps_dual`.  The lists
hold squared norms and the thresholds are given squared (`⊤` for `+inf`);
comparing squares agrees with comparing the nonnegative norms themselves.
An empty list would raise `IndexError` in Python; that case (`false` here) is
never reached by the loop, which tests only after an iteration appended. -/
def isLastIteration (epsPrimalSq epsDualSq : WithTop ℚ) (maxIter k : ℕ)
    (rs ss : List ℚ) : Bool :=
  if capReached maxIter k then true
  else
    match rs.getLast?, ss.getLast? with
    | some r, some s =>
        decide ((r : WithTop ℚ) ≤ epsPrimalSq ∧ (s : WithTop ℚ) ≤ epsDualSq)
    | _, _ => false

/-- Modelled from the spec: the `IterationLoop` driver of the base
`IterationAlgorithm` (spec §4.1: repeatedly `iterationStep()` then
`isTerminal()`; every step appends one diagnostics entry; the cap test inside
the terminal check always stops the loop at `maxIterations`).  `k` counts
completed iterations; the fuel argument makes the recursion structural and is
instantiated with the iteration cap, which the cap test never lets the loop
exceed. -/
def iterationLoop {S : Type} (step : S → S) (isTerm : ℕ → S → Bool) :
    ℕ → ℕ → S → ℕ × S
  | 0, k, st => (k, st)
  | fuel + 1, k, st =>
    let st1 := step st
    if isTerm (k + 1) st1 then (k + 1, st1)
    else iterationLoop step isTerm fuel (k + 1) st1

/-- The state at loop entry: `params` zero-filled (exchange_admm_algorithm.py
lines 144-149) and empty residual lists (lines 131-132). -/
def admmInit (n T : ℕ) : ExchangeState n T :=
  { pEl := fun _ _ => 0, xs := fun _ => 0, us := fun _ => 0,
    rNormSqs := [], sNormSqs := [] }

/-- A full `ExchangeADMM` run: the iteration loop driving `_iteration` with
`_is_last_iteration` as terminal test, starting from the zero-initialised
state, returning the number of executed iterations and the final state. -/
def admmRun (n T : ℕ) (rho : ℚ)
    (solve : (Fin (n + 1) → Fin T → ℚ) → (Fin T → ℚ) → (Fin T → ℚ) →
      Fin (n + 1) → Fin T → ℚ)
    (epsPrimalSq epsDualSq : WithTop ℚ) (maxIter : ℕ) :
    ℕ × ExchangeState n T :=
  iterationLoop (admmIteration n T rho solve)
    (fun k st => isLastIteration epsPrimalSq epsDualSq maxIter k
      st.rNormSqs st.sNormSqs)
    maxIter 0 (admmInit n T)

/-- Helper: every iteration appends exactly one entry to each residual list,
so after `j` iterations from the initial state both lists have length `j`. -/
theorem admmIterate_lengths (n T : ℕ) (rho : ℚ)
    (solve : (Fin (n + 1) → Fin T → ℚ) → (Fin T → ℚ) → (Fin T → ℚ) →
      Fin (n + 1) → Fin T → ℚ) :
    ∀ j : ℕ,
      ((admmIteration n T rho solve)^[j] (admmInit n T)).rNormSqs.length = j ∧
      ((admmIteration n T rho solve)^[j] (admmInit n T)).sNormSqs.length = j := by
  intro j
  induction j with
  | zero => exact ⟨rfl, rfl⟩
  | succ j ih =>
    rw [Function.iterate_succ_apply']
    constructor
    · show (((admmIteration n T rho solve)^[j] (admmInit n T)).rNormSqs ++
        [_]).length = j + 1
      rw [List.length_append, ih.1]
      rfl
    · show (((admmIteration n T rho solve)^[j] (admmInit n T)).sNormSqs ++
        [_]).length = j + 1
      rw [List.length_append, ih.2]
      rfl

/-- C4: the terminal test after iteration `k` holds iff the iteration cap is
reached or the last appended residual pair satisfies both thresholds; the cap
test is evaluated first and wins unconditionally (even on empty residual
lists); and the convergence part is only ever evaluated on states carrying at
least one appended residual pair, because every iteration appends one entry
before the test runs (conjunct three: after `j ≥ 1` iterations both lists
have length `j`). -/
theorem admmTerminationTest_spec :
    (∀ (epsP epsD : WithTop ℚ) (maxIter k : ℕ) (rs ss : List ℚ) (r s : ℚ),
        rs.getLast? = some r → ss.getLast? = some s →
        (isLastIteration epsP epsD maxIter k rs ss = true ↔
          (maxIter ≤ k ∨
            ((r : WithTop ℚ) ≤ epsP ∧ (s : WithTop ℚ) ≤ epsD)))) ∧
    (∀ (epsP epsD : WithTop ℚ) (maxIter k : ℕ) (rs ss : List ℚ),
        maxIter ≤ k → isLastIteration epsP epsD maxIter k rs ss = true) ∧
    (∀ (n T : ℕ) (rho : ℚ)
        (solve : (Fin (n + 1) → Fin T → ℚ) → (Fin T → ℚ) → (Fin T → ℚ) →
          Fin (n + 1) → Fin T → ℚ) (j : ℕ), 1 ≤ j →
        ((admmIteration n T rho solve)^[j] (admmInit n T)).rNormSqs.length = j
          ∧
        ((admmIteration n T rho solve)^[j] (admmInit n T)).sNormSqs.length
          = j) := by
  refine ⟨?_, ?_, ?_⟩
  · intro epsP epsD maxIter k rs ss r s hr hs
    unfold isLastIteration capReached
    by_cases hc : maxIter ≤ k
    · simp [hc]
    · simp [capReached, hc, hr, hs]
  · intro epsP epsD maxIter k rs ss hc
    unfold isLastIteration capReached
    simp [hc]
  · intro n T rho solve j _
    exact admmIterate_lengths n T rho solve j

/-- Witness for C4: the terminal test at concrete inputs, and the residual
lists after one iteration. -/
theorem admmTerminationTest_spec_witness :
    (isLastIteration ⊤ ⊤ 5 1 [(0 : ℚ)] [(0 : ℚ)] = true ↔
      (5 ≤ 1 ∨ (((0 : ℚ) : WithTop ℚ) ≤ ⊤ ∧ ((0 : ℚ) : WithTop ℚ) ≤ ⊤))) ∧
    (isLastIteration ⊤ ⊤ 3 3 [] [] = true) ∧
    (((admmIteration 0 1 2 (fun _ _ _ => fun _ _ => 0))^[1]
        (admmInit 0 1)).rNormSqs.length = 1 ∧
      ((admmIteration 0 1 2 (fun _ _ _ => fun _ _ => 0))^[1]
        (admmInit 0 1)).sNormSqs.length = 1) :=
  ⟨admmTerminationTest_spec.1 ⊤ ⊤ 5 1 [0] [0] 0 0 rfl rfl,
   admmTerminationTest_spec.2.1 ⊤ ⊤ 3 3 [] [] (Nat.le_refl 3),
   admmTerminationTest_spec.2.2 0 1 2 (fun _ _ _ => fun _ _ => 0) 1
     (Nat.le_refl 1)⟩

/-- Helper: if the terminal test succeeds right after the first iteration,
the loop stops there with iteration count 1. -/
theorem iterationLoop_one {S : Type} (step : S → S) (isTerm : ℕ → S → Bool)
    (fuel : ℕ) (init : S) (hf : 1 ≤ fuel)
    (h : isTerm 1 (step init) = true) :
    iterationLoop step isTerm fuel 0 init = (1, step init) := by
  match fuel, hf with
  | f + 1, _ => simp [iterationLoop, h]

/-- Helper: with both thresholds `⊤` (the float `+inf`) the convergence test
succeeds whenever a residual pair is present, so the terminal test holds
regardless of the cap. -/
theorem isLastIteration_top (maxIter k : ℕ) (rs ss : List ℚ)
    (hr : rs ≠ []) (hs : ss ≠ []) :
    isLastIteration ⊤ ⊤ maxIter k rs ss = true := by
  obtain ⟨r, hr'⟩ := Option.isSome_iff_exists.mp (List.getLast?_isSome.mpr hr)
  obtain ⟨s, hs'⟩ := Option.isSome_iff_exists.mp (List.getLast?_isSome.mpr hs)
  unfold isLastIteration
  by_cases hc : capReached maxIter k = true
  · simp [hc]
  · simp only [Bool.not_eq_true] at hc
    simp [hc, hr', hs', le_top]

/-- C5 (counterexample): with `eps_primal = eps_dual = +inf` and iteration cap
`N = 2 > 1`, the run does not execute `N` iterations: it stops after the
first iteration, because any finite residual satisfies an infinite
threshold. -/
theorem admmRun_infinite_eps_stops_early :
    (admmRun 0 1 2 (fun _ _ _ => fun _ _ => 0) ⊤ ⊤ 2).1 ≠ 2 ∧
      (admmRun 0 1 2 (fun _ _ _ => fun _ _ => 0) ⊤ ⊤ 2).1 = 1 := by
  have h1 : (admmRun 0 1 2 (fun _ _ _ => fun _ _ => 0) ⊤ ⊤ 2).1 = 1 := by
    unfold admmRun
    rw [iterationLoop_one _ _ 2 _ (by omega)]
    apply isLastIteration_top
    · show (admmInit 0 1).rNormSqs ++ [_] ≠ []
      simp
    · show (admmInit 0 1).sNormSqs ++ [_] ≠ []
      simp
  refine ⟨?_, h1⟩
  rw [h1]
  omega

/-- C5 (amended): with `eps_primal = eps_dual = +inf` and any iteration cap
`N > 1`, the run terminates after exactly one iteration — not at the cap —
since the convergence test is trivially satisfied by the first appended
residual pair. -/
theorem admmRun_infinite_eps_one_iteration (n T : ℕ) (rho : ℚ)
    (solve : (Fin (n + 1) → Fin T → ℚ) → (Fin T → ℚ) → (Fin T → ℚ) →
      Fin (n + 1) → Fin T → ℚ)
    (maxIter : ℕ) (h : 1 < maxIter) :
    (admmRun n T rho solve ⊤ ⊤ maxIter).1 = 1 := by
  unfold admmRun
  rw [iterationLoop_one _ _ maxIter _ (by omega)]
  apply isLastIteration_top
  · show (admmInit n T).rNormSqs ++ [_] ≠ []
    simp
  · show (admmInit n T).sNormSqs ++ [_] ≠ []
    simp

/-- Witness for C5 (amended) at cap 3. -/
theorem admmRun_infinite_eps_one_iteration_witness :
    1 < 3 ∧ (admmRun 0 1 2 (fun _ _ _ => fun _ _ => 0) ⊤ ⊤ 3).1 = 1 :=
  ⟨by omega,
   admmRun_infinite_eps_one_iteration 0 1 2 (fun _ _ _ => fun _ _ => 0) 3
     (by omega)⟩

/-- The `max_low`/`min_full` validation of `CurtailableLoad.__init__`
(curtailable_load.py lines 40-46): if either option is supplied, the asserts
require both to be supplied, `min_full >= 1` and `max_low >= 0`; the result is
`true` iff no assert fires (construction succeeds). -/
def curtailableLoadInitOk (maxLow minFull : Option ℤ) : Bool :=
  if maxLow ≠ none ∨ minFull ≠ none then
    maxLow.isSome && minFull.isSome &&
      minFull.elim false (fun mf => decide (1 ≤ mf)) &&
      maxLow.elim false (fun ml => decide (0 ≤ ml))
  else true

/-- C8: constructing a `CurtailableLoad` fails iff exactly one of `max_low`
and `min_full` is supplied without the other, or `min_full < 1`, or
`max_low < 0`; every other combination passes the constructor's checks. -/
theorem curtailableLoadInitValidation (maxLow minFull : Option ℤ) :
    curtailableLoadInitOk maxLow minFull = false ↔
      (maxLow.isSome ≠ minFull.isSome ∨
        (∃ v, minFull = some v ∧ v < 1) ∨
        (∃ v, maxLow = some v ∧ v < 0)) := by
  rcases maxLow with _ | ml <;> rcases minFull with _ | mf <;>
    simp [curtailableLoadInitOk] <;> omega

/-- The model description produced by `CurtailableLoad.populate_model`:
uniform variable bounds, the number of binary state variables, the initial
right-hand sides of the pre-created history constraints
(`constr_previous_state`, `constr_previous_start`, `constr_previous`), and
which in-window constraint families were created. -/
structure CLModelDesc where
  lb : ℚ
  ub : ℚ
  nStateVars : ℕ
  prevStateRhs : List (WithBot ℚ)
  prevStartRhs : Option (WithTop ℚ)
  prevPowerRhs : List (WithBot ℚ)
  coupling : Bool
  maxLowWin : Bool
  minFullWin : Bool
  convexWin : Bool

/-- `CurtailableLoad.populate_model` (curtailable_load.py lines 53-162) over
an operation horizon `H`, with `Nom = P_El_Nom` and `Curt = P_El_Curt`.
Branches: `max_low` unset → only the `[Curt, Nom]` bounds; `max_low == 0` →
lower bounds raised to `Nom`, nothing else; integer mode → binary state
variables, coupling, `max_low` windows, `min(max(max_low, min_full-1), H)`
history constraints with RHS `-inf`, and for `min_full > 1` the start
constraint (RHS `+inf`) plus the `min_full` windows; convex mode → the
sliding-window energy constraints and `min(max_low+min_full-1, H)` history
constraints with RHS `-inf`. -/
def clPopulate (Nom Curt : ℚ) (lowFull : Option (ℕ × ℕ)) (H : ℕ)
    (integerMode : Bool) : CLModelDesc :=
  match lowFull with
  | none =>
    { lb := Curt, ub := Nom, nStateVars := 0, prevStateRhs := [],
      prevStartRhs := none, prevPowerRhs := [], coupling := false,
      maxLowWin := false, minFullWin := false, convexWin := false }
  | some (ml, mf) =>
    if ml = 0 then
      { lb := Nom, ub := Nom, nStateVars := 0, prevStateRhs := [],
        prevStartRhs := none, prevPowerRhs := [], coupling := false,
        maxLowWin := false, minFullWin := false, convexWin := false }
    else if integerMode then
      { lb := Curt, ub := Nom, nStateVars := H,
        prevStateRhs := List.replicate (min (max ml (mf - 1)) H) ⊥,
        prevStartRhs := if 1 < mf then some ⊤ else none,
        prevPowerRhs := [], coupling := true, maxLowWin := true,
        minFullWin := decide (1 < mf), convexWin := false }
    else
      { lb := Curt, ub := Nom, nStateVars := 0, prevStateRhs := [],
        prevStartRhs := none,
        prevPowerRhs := List.replicate (min (ml + mf - 1) H) ⊥,
        coupling := false, maxLowWin := false, minFullWin := false,
        convexWin := true }

/-- The 0/1 value of a binary state variable. -/
def stateQ (b : Bool) : ℚ := if b then 1 else 0

/-- `gurobi.quicksum(vars[a:b])`: the sum of the variables with index in
`[a, b)`, silently clipped to the horizon like a Python slice. -/
def sliceSum (H : ℕ) (f : Fin H → ℚ) (a b : ℕ) : ℚ :=
  ∑ t : Fin H, if a ≤ (t : ℕ) ∧ (t : ℕ) < b then f t else 0

/-- Variable bounds set by `populate_model` (lines 70-72 and 82-83). -/
def boundsHold (H : ℕ) (lb ub : ℚ) (pEl : Fin H → ℚ) : Prop :=
  ∀ t, lb ≤ pEl t ∧ pEl t ≤ ub

/-- State-power coupling `P_State_vars[t] * P_El_Nom <= P_El_vars[t]`
(lines 99-102). -/
def couplingHolds (H : ℕ) (Nom : ℚ) (pEl : Fin H → ℚ)
    (state : Fin H → Bool) : Prop :=
  ∀ t, stateQ (state t) * Nom ≤ pEl t

/-- In-window `max_low` constraints (lines 116-122): each full slice of
`max_low + 1` consecutive states sums to at least 1. -/
def maxLowWinHold (H ml : ℕ) (state : Fin H → Bool) : Prop :=
  ∀ t : Fin H, (t : ℕ) + ml + 1 ≤ H →
    1 ≤ sliceSum H (fun u => stateQ (state u)) t ((t : ℕ) + ml + 1)

/-- The `constr_previous_start` constraint (lines 127-132):
`P_State_vars[0] * len(next_states) - quicksum(next_states) <= RHS` with
`next_states = P_State_vars[1:min_full]`; it exists iff the RHS option is
`some`. -/
def minFullStartHold (H mf : ℕ) (rhs : Option (WithTop ℚ))
    (state : Fin H → Bool) : Prop :=
  ∀ r ∈ rhs,
    ((sliceSum H (fun u => stateQ (state u)) 0 1 * ((min mf H - 1 : ℕ) : ℚ) -
        sliceSum H (fun u => stateQ (state u)) 1 mf : ℚ) : WithTop ℚ) ≤ r

/-- In-window `min_full` constraints (lines 133-139):
`(P_State_vars[t+1] - P_State_vars[t]) * len(next_states) <=
quicksum(next_states)` with `next_states = P_State_vars[t+2:t+min_full+1]`,
for `t` in `op_time_vec[:-2]`. -/
def minFullWinHold (H mf : ℕ) (state : Fin H → Bool) : Prop :=
  ∀ t : Fin H, (t : ℕ) + 2 < H →
    (sliceSum H (fun u => stateQ (state u)) ((t : ℕ) + 1) ((t : ℕ) + 2) -
        sliceSum H (fun u => stateQ (state u)) t ((t : ℕ) + 1)) *
      ((min ((t : ℕ) + mf + 1) H - ((t : ℕ) + 2) : ℕ) : ℚ) ≤
      sliceSum H (fun u => stateQ (state u)) ((t : ℕ) + 2) ((t : ℕ) + mf + 1)

/-- The `constr_previous_state` constraints (lines 109-112): the `j`-th
(0-based) requires `quicksum(P_State_vars[:j+1]) >= RHS[j]`. -/
def prevStateHold (H : ℕ) (rhs : List (WithBot ℚ))
    (state : Fin H → Bool) : Prop :=
  ∀ j : Fin rhs.length,
    rhs.get j ≤
      ((sliceSum H (fun u => stateQ (state u)) 0 ((j : ℕ) + 1) : ℚ) :
        WithBot ℚ)

/-- The `constr_previous` constraints (lines 154-158): the `j`-th (0-based)
requires `quicksum(P_El_vars[:j+1]) >= RHS[j]`. -/
def prevPowerHold (H : ℕ) (rhs : List (WithBot ℚ)) (pEl : Fin H → ℚ) :
    Prop :=
  ∀ j : Fin rhs.length,
    rhs.get j ≤ ((sliceSum H pEl 0 ((j : ℕ) + 1) : ℚ) : WithBot ℚ)

/-- The relaxed sliding-window energy constraints (lines 141-149): every full
window of `min_full + max_low` consecutive power variables sums to at least
`P_El_Nom * min_full + P_El_Curt * max_low`. -/
def convexWinHold (H ml mf : ℕ) (Nom Curt : ℚ) (pEl : Fin H → ℚ) : Prop :=
  ∀ t : Fin H, (t : ℕ) + (mf + ml) ≤ H →
    Nom * mf + Curt * ml ≤ sliceSum H pEl t ((t : ℕ) + (mf + ml))

/-- The feasible region described by a populated `CurtailableLoad` model with
possibly-rewritten history-constraint right-hand sides. -/
def clFeasible (Nom Curt : ℚ) (ml mf H : ℕ) (d : CLModelDesc)
    (pEl : Fin H → ℚ) (state : Fin H → Bool) : Prop :=
  boundsHold H d.lb d.ub pEl ∧
  (d.coupling = true → couplingHolds H Nom pEl state) ∧
  (d.maxLowWin = true → maxLowWinHold H ml state) ∧
  (d.minFullWin = true → minFullWinHold H mf state) ∧
  minFullStartHold H mf d.prevStartRhs state ∧
  prevStateHold H d.prevStateRhs state ∧
  (d.convexWin = true → convexWinHold H ml mf Nom Curt pEl) ∧
  prevPowerHold H d.prevPowerRhs pEl

/-- C10: with `max_low = 0` (and any `min_full >= 1`), `populate_model` in
both encodings raises every lower bound to `P_El_Nom`, creates no binary
state variables and no history constraints, and the feasible region is
exactly full nominal output at every step of the window. -/
theorem curtailableLoadMaxLowZero (Nom Curt : ℚ) (mf H : ℕ)
    (integerMode : Bool) (hmf : 1 ≤ mf) :
    ((clPopulate Nom Curt (some (0, mf)) H integerMode).lb = Nom ∧
     (clPopulate Nom Curt (some (0, mf)) H integerMode).ub = Nom ∧
     (clPopulate Nom Curt (some (0, mf)) H integerMode).nStateVars = 0 ∧
     (clPopulate Nom Curt (some (0, mf)) H integerMode).prevStateRhs = [] ∧
     (clPopulate Nom Curt (some (0, mf)) H integerMode).prevStartRhs = none ∧
     (clPopulate Nom Curt (some (0, mf)) H integerMode).prevPowerRhs = []) ∧
    ∀ (pEl : Fin H → ℚ) (state : Fin H → Bool),
      clFeasible Nom Curt 0 mf H
          (clPopulate Nom Curt (some (0, mf)) H integerMode) pEl state ↔
        ∀ t, pEl t = Nom := by
  refine ⟨⟨rfl, rfl, rfl, rfl, rfl, rfl⟩, fun pEl state => ⟨?_, ?_⟩⟩
  · rintro ⟨hb, -, -, -, -, -, -, -⟩ t
    exact le_antisymm (hb t).2 (hb t).1
  · intro h
    refine ⟨fun t => ⟨(h t).ge, (h t).le⟩, ?_, ?_, ?_, ?_, ?_, ?_, ?_⟩
    · intro hcontra
      exact absurd hcontra (by simp [clPopulate])
    · intro hcontra
      exact absurd hcontra (by simp [clPopulate])
    · intro hcontra
      exact absurd hcontra (by simp [clPopulate])
    · intro r hr
      exact absurd hr (by simp [clPopulate])
    · intro j
      exact absurd j.2 (by simp [clPopulate])
    · intro hcontra
      exact absurd hcontra (by simp [clPopulate])
    · intro j
      exact absurd j.2 (by simp [clPopulate])

/-- Witness for C10 at `Nom = 10`, `Curt = 2`, `min_full = 1`, `H = 1`,
integer mode. -/
theorem curtailableLoadMaxLowZero_witness :
    (1 ≤ 1) ∧
    (((clPopulate 10 2 (some (0, 1)) 1 true).lb = 10 ∧
      (clPopulate 10 2 (some (0, 1)) 1 true).ub = 10 ∧
      (clPopulate 10 2 (some (0, 1)) 1 true).nStateVars = 0 ∧
      (clPopulate 10 2 (some (0, 1)) 1 true).prevStateRhs = [] ∧
      (clPopulate 10 2 (some (0, 1)) 1 true).prevStartRhs = none ∧
      (clPopulate 10 2 (some (0, 1)) 1 true).prevPowerRhs = []) ∧
     ∀ (pEl : Fin 1 → ℚ) (state : Fin 1 → Bool),
       clFeasible 10 2 0 1 1 (clPopulate 10 2 (some (0, 1)) 1 true) pEl
           state ↔
         ∀ t, pEl t = 10) :=
  ⟨le_refl 1, curtailableLoadMaxLowZero 10 2 1 1 true (le_refl 1)⟩

/-- The backward scan over below-nominal history in
`CurtailableLoad.update_model` (curtailable_load.py lines 208-211):
`low_ts = 1; while timestep - low_ts - 1 >= 0 and not
P_State_Schedule[timestep - low_ts - 1]: assert low_ts <= max_low;
low_ts += 1`.  `none` models an `AssertionError`; the fuel argument makes the
recursion structural and is instantiated with `timestep`, which the loop
condition cannot outrun. -/
def scanLowAux (sched : ℕ → Bool) (timestep ml : ℕ) :
    ℕ → ℕ → Option ℕ
  | 0, lowTs => some lowTs
  | fuel + 1, lowTs =>
    if 0 ≤ (timestep : ℤ) - lowTs - 1 ∧
        sched ((timestep : ℤ) - lowTs - 1).toNat = false then
      if lowTs ≤ ml then scanLowAux sched timestep ml fuel (lowTs + 1)
      else none
    else some lowTs

/-- The backward low-run scan, entered with `low_ts = 1`. -/
def scanLow (sched : ℕ → Bool) (timestep ml : ℕ) : Option ℕ :=
  scanLowAux sched timestep ml timestep 1

/-- The backward scan over full-output history (lines 183-185):
`full_ts = 1; while timestep - full_ts - 1 >= 0 and
P_State_Schedule[timestep - full_ts - 1]: full_ts += 1`. -/
def fullCountAux (sched : ℕ → Bool) (timestep : ℕ) : ℕ → ℕ → ℕ
  | 0, fullTs => fullTs
  | fuel + 1, fullTs =>
    if 0 ≤ (timestep : ℤ) - fullTs - 1 ∧
        sched ((timestep : ℤ) - fullTs - 1).toNat = true then
      fullCountAux sched timestep fuel (fullTs + 1)
    else fullTs

/-- The backward full-run scan, entered with `full_ts = 1`. -/
def fullCount (sched : ℕ → Bool) (timestep : ℕ) : ℕ :=
  fullCountAux sched timestep timestep 1

/-- Python list element assignment `l[i] = a`, including the negative-index
convention `l[-1]` used at curtailable_load.py line 201. -/
def pySet {α : Type} (l : List α) (i : ℤ) (a : α) : List α :=
  if 0 ≤ i then l.set i.toNat a else l.set (l.length - (-i).toNat) a

/-- The integer-mode part of `CurtailableLoad.update_model` (lines 167-217):
given the realized state schedule and the current RHS of
`constr_previous_state` / `constr_previous_start`, produce the rewritten
RHS, or `none` if the scan assertion fires.  At `timestep = 0` (or with no
pre-created constraints) nothing is touched. -/
def updatePrevState (ml mf H : ℕ) (sched : ℕ → Bool) (timestep : ℕ)
    (prevRhs : List (WithBot ℚ)) (startRhs : Option (WithTop ℚ)) :
    Option (List (WithBot ℚ) × Option (WithTop ℚ)) :=
  if timestep ≠ 0 ∧ prevRhs ≠ [] then
    let rhs0 : List (WithBot ℚ) := List.replicate prevRhs.length ⊥
    let start1 := startRhs.map fun _ =>
      if sched (timestep - 1) then (⊤ : WithTop ℚ) else (0 : WithTop ℚ)
    if sched (timestep - 1) then
      let fullTs := fullCount sched timestep
      if (timestep : ℤ) - fullTs - 1 < 0 then some (rhs0, start1)
      else
        let remaining : ℤ := (mf : ℤ) - fullTs
        if remaining ≤ 0 then some (rhs0, start1)
        else if (H : ℤ) < remaining then
          some (pySet rhs0 (-1) ((H : ℚ) : WithBot ℚ), start1)
        else
          some (pySet rhs0 (remaining - 1) (((remaining : ℚ) : WithBot ℚ)),
            start1)
    else
      match scanLow sched timestep ml with
      | none => none
      | some lowTs =>
        let overlap : ℤ := (ml : ℤ) - lowTs + 1
        if overlap ≤ (H : ℤ) then
          some (pySet rhs0 (overlap - 1) ((1 : ℚ) : WithBot ℚ), start1)
        else some (rhs0, start1)
  else some (prevRhs, startRhs)

/-- The per-constraint RHS computed by the relaxed part of `update_model`
(lines 222-240): the energy required over one sliding window, truncated where
the window reaches before the start of the simulation, minus the energy
already delivered by the realized power schedule. -/
def convexRequiredRhs (ml mf : ℕ) (Curt Nom : ℚ) (sched : ℕ → ℚ)
    (timestep overlap : ℕ) : ℚ :=
  let width := mf + ml
  let required : List ℚ := List.replicate ml Curt ++ List.replicate mf Nom
  let startT : ℤ := (timestep : ℤ) - ((width : ℤ) - (overlap : ℤ))
  let required1 :=
    if startT < 0 then required.take ((required.length : ℤ) + startT).toNat
    else required
  let startN : ℕ := if startT < 0 then 0 else startT.toNat
  required1.sum - ∑ i in Finset.Ico startN timestep, sched i

/-- The relaxed part of `update_model` (lines 220-240): the `j`-th (0-based)
`constr_previous` receives the RHS for overlap `j + 1`. -/
def updatePrevPower (ml mf : ℕ) (Curt Nom : ℚ) (sched : ℕ → ℚ)
    (timestep count : ℕ) : List (WithBot ℚ) :=
  (List.range count).map fun j =>
    ((convexRequiredRhs ml mf Curt Nom sched timestep (j + 1) : ℚ) :
      WithBot ℚ)

/-- Helper: under the `max_low` rule, a run of `lowTs` consecutive
below-nominal realized steps ending at `timestep - 1` cannot exceed
`max_low`. -/
theorem lowRunBound (sched : ℕ → Bool) (timestep ml lowTs : ℕ)
    (rule : ∀ a, a + ml < timestep → ∃ k, k ≤ ml ∧ sched (a + k) = true)
    (h1 : 1 ≤ lowTs) (h2 : lowTs ≤ timestep)
    (hinv : ∀ i, timestep - lowTs ≤ i → i < timestep → sched i = false) :
    lowTs ≤ ml := by
  by_contra hml
  push_neg at hml
  obtain ⟨k, hk, hks⟩ := rule (timestep - lowTs) (by omega)
  have hfalse := hinv (timestep - lowTs + k) (by omega) (by omega)
  rw [hks] at hfalse
  exact absurd hfalse (by simp)

/-- Helper: the scan loop maintains that all positions from
`timestep - low_ts` to `timestep - 1` are below nominal, hence, under the
`max_low` rule, the assertion `low_ts <= max_low` holds at every check and
the loop returns a count of at most `max_low`. -/
theorem scanLowAux_sound (sched : ℕ → Bool) (timestep ml : ℕ)
    (rule : ∀ a, a + ml < timestep → ∃ k, k ≤ ml ∧ sched (a + k) = true) :
    ∀ fuel lowTs, 1 ≤ lowTs → lowTs ≤ timestep →
      (∀ i, timestep - lowTs ≤ i → i < timestep → sched i = false) →
      ∃ r, scanLowAux sched timestep ml fuel lowTs = some r ∧ r ≤ ml := by
  intro fuel
  induction fuel with
  | zero =>
    intro lowTs h1 h2 hinv
    exact ⟨lowTs, rfl, lowRunBound sched timestep ml lowTs rule h1 h2 hinv⟩
  | succ fuel ih =>
    intro lowTs h1 h2 hinv
    have hbound : lowTs ≤ ml :=
      lowRunBound sched timestep ml lowTs rule h1 h2 hinv
    rw [scanLowAux]
    by_cases hc : 0 ≤ (timestep : ℤ) - lowTs - 1 ∧
        sched ((timestep : ℤ) - lowTs - 1).toNat = false
    · rw [if_pos hc, if_pos hbound]
      have hidx : ((timestep : ℤ) - lowTs - 1).toNat = timestep - lowTs - 1 :=
        by omega
      refine ih (lowTs + 1) (by omega) (by omega) ?_
      intro i hi1 hi2
      rcases Nat.lt_or_ge i (timestep - lowTs) with hlt | hge
      · have : i = timestep - lowTs - 1 := by omega
        rw [this, ← hidx]
        exact hc.2
      · exact hinv i hge hi2
    · rw [if_neg hc]
      exact ⟨lowTs, rfl, hbound⟩

/-- C9: if the realized state schedule satisfies the `max_low` rule on
`[0, timestep)` — no window of `max_low + 1` consecutive steps is entirely
below nominal — and the step before the window was below nominal (the branch
in which the scan runs), then the backward scan terminates without its
assertion `low_ts <= max_low` ever firing, and it counts at most `max_low`
consecutive below-nominal steps. -/
theorem scanLowAssertNeverFails (sched : ℕ → Bool) (timestep ml : ℕ)
    (rule : ∀ a, a + ml < timestep → ∃ k, k ≤ ml ∧ sched (a + k) = true)
    (ht : 1 ≤ timestep) (hlow : sched (timestep - 1) = false) :
    ∃ r, scanLow sched timestep ml = some r ∧ r ≤ ml := by
  unfold scanLow
  refine scanLowAux_sound sched timestep ml rule timestep 1 (le_refl 1) ht ?_
  intro i hi1 hi2
  have : i = timestep - 1 := by omega
  rw [this]
  exact hlow

/-- Witness for C9 with an all-below-nominal schedule at `timestep = 1`,
`max_low = 1` (the rule holds vacuously on `[0, 1)` windows of length 2). -/
theorem scanLowAssertNeverFails_witness :
    (∀ a : ℕ, a + 1 < 1 → ∃ k, k ≤ 1 ∧ (fun _ : ℕ => false) (a + k) = true) ∧
    1 ≤ 1 ∧ (fun _ : ℕ => false) (1 - 1) = false ∧
    ∃ r, scanLow (fun _ => false) 1 1 = some r ∧ r ≤ 1 :=
  ⟨fun a ha => absurd ha (by omega), le_refl 1, rfl,
   scanLowAssertNeverFails (fun _ => false) 1 1
     (fun a ha => absurd ha (by omega)) (le_refl 1) rfl⟩

/-- Helper: three booleans subject to the rewritten history constraint
(`b0 + b1 >= 1`), the start constraint (`b0 <= b1`) and the first in-window
`min_full` constraint (`b1 - b0 <= b2`) must start a full-output run of
length two no later than index 1. -/
theorem threeBoolForce (b0 b1 b2 : Bool)
    (h1 : stateQ b0 - stateQ b1 ≤ 0)
    (h2 : 1 ≤ stateQ b0 + stateQ b1)
    (h3 : stateQ b1 - stateQ b0 ≤ stateQ b2) :
    (b0 = true ∧ b1 = true) ∨ (b1 = true ∧ b2 = true) := by
  cases b0 <;> cases b1 <;> cases b2 <;> simp_all [stateQ] <;> norm_num at *

/-- C6: for `max_low = 2`, `min_full = 2`, nominal power 10, curtailed power
2, window length 6, integer mode, with the realized state below nominal for
exactly the single step preceding the window (`timestep = 1`), `update_model`
rewrites the pre-created bounds to `constr_previous_state = [-inf, 1]` (the
rewritten bound `1` is the one owed full-output step within the first
`max_low - low_ts + 1 = 2` steps) and `constr_previous_start = 0`; under
these bounds every feasible schedule runs at full output no later than step 1
and sustains it for at least `min_full = 2` consecutive steps, at exactly the
nominal power 10. -/
theorem curtailableLoadHistoryExample :
    updatePrevState 2 2 6 (fun _ => false) 1
        (clPopulate 10 2 (some (2, 2)) 6 true).prevStateRhs
        (clPopulate 10 2 (some (2, 2)) 6 true).prevStartRhs =
      some ([⊥, ((1 : ℚ) : WithBot ℚ)], some ((0 : ℚ) : WithTop ℚ)) ∧
    ∀ (pEl : Fin 6 → ℚ) (state : Fin 6 → Bool),
      clFeasible 10 2 2 2 6
          { clPopulate 10 2 (some (2, 2)) 6 true with
              prevStateRhs := [⊥, ((1 : ℚ) : WithBot ℚ)],
              prevStartRhs := some ((0 : ℚ) : WithTop ℚ) } pEl state →
      (((state 0 = true ∧ state 1 = true) ∨
          (state 1 = true ∧ state 2 = true)) ∧
        ∀ t, state t = true → pEl t = 10) := by
  constructor
  · rfl
  · rintro pEl state ⟨hb, hcoup, -, hwin, hstart, hprev, -, -⟩
    have e01 : sliceSum 6 (fun u => stateQ (state u)) 0 1 =
        stateQ (state 0) := by
      simp [sliceSum, Fin.sum_univ_six,
        show ((3 : Fin 6) : ℕ) = 3 from rfl,
        show ((4 : Fin 6) : ℕ) = 4 from rfl,
        show ((5 : Fin 6) : ℕ) = 5 from rfl]
    have e12 : sliceSum 6 (fun u => stateQ (state u)) 1 2 =
        stateQ (state 1) := by
      simp [sliceSum, Fin.sum_univ_six,
        show ((3 : Fin 6) : ℕ) = 3 from rfl,
        show ((4 : Fin 6) : ℕ) = 4 from rfl,
        show ((5 : Fin 6) : ℕ) = 5 from rfl]
    have e02 : sliceSum 6 (fun u => stateQ (state u)) 0 2 =
        stateQ (state 0) + stateQ (state 1) := by
      simp [sliceSum, Fin.sum_univ_six,
        show ((3 : Fin 6) : ℕ) = 3 from rfl,
        show ((4 : Fin 6) : ℕ) = 4 from rfl,
        show ((5 : Fin 6) : ℕ) = 5 from rfl]
    have e23 : sliceSum 6 (fun u => stateQ (state u)) 2 3 =
        stateQ (state 2) := by
      simp [sliceSum, Fin.sum_univ_six,
        show ((3 : Fin 6) : ℕ) = 3 from rfl,
        show ((4 : Fin 6) : ℕ) = 4 from rfl,
        show ((5 : Fin 6) : ℕ) = 5 from rfl]
    have hstart0 : ((sliceSum 6 (fun u => stateQ (state u)) 0 1 *
        ((min 2 6 - 1 : ℕ) : ℚ) -
        sliceSum 6 (fun u => stateQ (state u)) 1 2 : ℚ) : WithTop ℚ) ≤
        ((0 : ℚ) : WithTop ℚ) := hstart ((0 : ℚ) : WithTop ℚ) rfl
    rw [WithTop.coe_le_coe, e01, e12,
      show ((min 2 6 - 1 : ℕ) : ℚ) = 1 by norm_num] at hstart0
    have hp : ((1 : ℚ) : WithBot ℚ) ≤
        ((sliceSum 6 (fun u => stateQ (state u)) 0 2 : ℚ) : WithBot ℚ) :=
      hprev ⟨1, by norm_num⟩
    rw [WithBot.coe_le_coe, e02] at hp
    have hw : (sliceSum 6 (fun u => stateQ (state u)) 1 2 -
        sliceSum 6 (fun u => stateQ (state u)) 0 1) *
        ((min 3 6 - 2 : ℕ) : ℚ) ≤
        sliceSum 6 (fun u => stateQ (state u)) 2 3 :=
      hwin rfl ⟨0, by norm_num⟩ (by norm_num)
    rw [e01, e12, e23, show ((min 3 6 - 2 : ℕ) : ℚ) = 1 by norm_num] at hw
    refine ⟨threeBoolForce (state 0) (state 1) (state 2)
      (by linarith) hp (by linarith), ?_⟩
    intro t ht
    have hub : pEl t ≤ 10 := (hb t).2
    have hcp : stateQ (state t) * 10 ≤ pEl t := hcoup rfl t
    rw [ht] at hcp
    have : (10 : ℚ) ≤ pEl t := by
      simpa [stateQ] using hcp
    linarith

/-- Witness for C6: the always-full schedule at nominal power 10 is feasible
for the rewritten model and indeed starts a sustained full-output run at
step 0. -/
theorem curtailableLoadHistoryExample_witness :
    clFeasible 10 2 2 2 6
        { clPopulate 10 2 (some (2, 2)) 6 true with
            prevStateRhs := [⊥, ((1 : ℚ) : WithBot ℚ)],
            prevStartRhs := some ((0 : ℚ) : WithTop ℚ) }
        (fun _ => 10) (fun _ => true) ∧
    ((((fun _ : Fin 6 => true) 0 = true ∧ (fun _ : Fin 6 => true) 1 = true) ∨
        ((fun _ : Fin 6 => true) 1 = true ∧
          (fun _ : Fin 6 => true) 2 = true)) ∧
      ∀ t : Fin 6, (fun _ : Fin 6 => true) t = true →
        (fun _ : Fin 6 => (10 : ℚ)) t = 10) := by
  have hf : clFeasible 10 2 2 2 6
      { clPopulate 10 2 (some (2, 2)) 6 true with
          prevStateRhs := [⊥, ((1 : ℚ) : WithBot ℚ)],
          prevStartRhs := some ((0 : ℚ) : WithTop ℚ) }
      (fun _ => 10) (fun _ => true) := by
    refine ⟨?_, ?_, ?_, ?_, ?_, ?_, ?_, ?_⟩
    · intro t
      exact ⟨show (2 : ℚ) ≤ 10 by norm_num, le_refl 10⟩
    · intro _ t
      show stateQ true * 10 ≤ 10
      norm_num [stateQ]
    · intro _ t ht
      fin_cases t <;>
        simp_all [-Finset.sum_boole, sliceSum, Fin.sum_univ_six, stateQ,
          show ((2 : Fin 6) : ℕ) = 2 from rfl,
          show ((3 : Fin 6) : ℕ) = 3 from rfl,
          show ((4 : Fin 6) : ℕ) = 4 from rfl,
          show ((5 : Fin 6) : ℕ) = 5 from rfl] <;>
        norm_num
    · intro _ t ht
      fin_cases t <;>
        simp_all [-Finset.sum_boole, sliceSum, Fin.sum_univ_six, stateQ,
          show ((2 : Fin 6) : ℕ) = 2 from rfl,
          show ((3 : Fin 6) : ℕ) = 3 from rfl,
          show ((4 : Fin 6) : ℕ) = 4 from rfl,
          show ((5 : Fin 6) : ℕ) = 5 from rfl] <;>
        norm_num
    · intro r hr
      obtain rfl : ((0 : ℚ) : WithTop ℚ) = r := Option.some_injective _ hr
      show ((sliceSum 6 (fun _ => stateQ true) 0 1 * ((min 2 6 - 1 : ℕ) : ℚ) -
          sliceSum 6 (fun _ => stateQ true) 1 2 : ℚ) : WithTop ℚ) ≤
        ((0 : ℚ) : WithTop ℚ)
      rw [WithTop.coe_le_coe]
      norm_num [-Finset.sum_boole, sliceSum, Fin.sum_univ_six, stateQ,
        show ((2 : Fin 6) : ℕ) = 2 from rfl,
        show ((3 : Fin 6) : ℕ) = 3 from rfl,
        show ((4 : Fin 6) : ℕ) = 4 from rfl,
        show ((5 : Fin 6) : ℕ) = 5 from rfl]
    · intro j
      fin_cases j
      · exact bot_le
      · show ((1 : ℚ) : WithBot ℚ) ≤
          ((sliceSum 6 (fun _ => stateQ true) 0 2 : ℚ) : WithBot ℚ)
        rw [WithBot.coe_le_coe]
        norm_num [-Finset.sum_boole, sliceSum, Fin.sum_univ_six, stateQ,
          show ((2 : Fin 6) : ℕ) = 2 from rfl,
          show ((3 : Fin 6) : ℕ) = 3 from rfl,
          show ((4 : Fin 6) : ℕ) = 4 from rfl,
          show ((5 : Fin 6) : ℕ) = 5 from rfl]
    · intro h
      exact Bool.noConfusion h
    · intro j
      exact absurd j.2 (Nat.not_lt_zero _)
  exact ⟨hf, curtailableLoadHistoryExample.2 (fun _ => 10) (fun _ => true) hf⟩

/-- Helper: an empty slice sums to zero. -/
theorem sliceSum_zero_of_ge (H : ℕ) (f : Fin H → ℚ) (a b : ℕ) (h : b ≤ a) :
    sliceSum H f a b = 0 := by
  refine Finset.sum_eq_zero fun t _ => ?_
  rw [if_neg]
  omega

/-- Helper: a one-element slice is the single variable. -/
theorem sliceSum_single (H : ℕ) (f : Fin H → ℚ) (b : ℕ) (hb : b < H) :
    sliceSum H f b (b + 1) = f ⟨b, hb⟩ := by
  unfold sliceSum
  refine (Finset.sum_eq_single ⟨b, hb⟩ ?_ ?_).trans ?_
  · intro x _ hx
    rw [if_neg]
    rintro ⟨hc1, hc2⟩
    exact hx (Fin.ext (show (x : ℕ) = b by omega))
  · intro hmem
    exact absurd (Finset.mem_univ _) hmem
  · rw [if_pos ⟨le_refl b, Nat.lt_succ_self b⟩]

/-- Helper: a slice splits at an intermediate index. -/
theorem sliceSum_split (H : ℕ) (f : Fin H → ℚ) (a b c : ℕ)
    (h1 : a ≤ b) (h2 : b ≤ c) :
    sliceSum H f a c = sliceSum H f a b + sliceSum H f b c := by
  unfold sliceSum
  rw [← Finset.sum_add_distrib]
  refine Finset.sum_congr rfl fun t _ => ?_
  split_ifs <;> first | omega | ring

/-- Helper: a slice of variables bounded below by `lb` sums to at least its
length times `lb` (auxiliary induction form). -/
theorem sliceSum_ge_mul_aux (H : ℕ) (f : Fin H → ℚ) (lb : ℚ)
    (hf : ∀ t, lb ≤ f t) :
    ∀ d a, a + d ≤ H → ((d : ℕ) : ℚ) * lb ≤ sliceSum H f a (a + d) := by
  intro d
  induction d with
  | zero =>
    intro a ha
    rw [Nat.add_zero, sliceSum_zero_of_ge H f a a (le_refl a)]
    simp
  | succ d ih =>
    intro a ha
    have hsplit : sliceSum H f a (a + (d + 1)) =
        sliceSum H f a (a + d) + sliceSum H f (a + d) (a + d + 1) :=
      sliceSum_split H f a (a + d) (a + d + 1) (by omega) (by omega)
    rw [hsplit, sliceSum_single H f (a + d) (by omega)]
    have h1 := ih a (by omega)
    have h2 := hf ⟨a + d, by omega⟩
    push_cast
    push_cast at h1
    linarith

/-- Helper: a slice of variables bounded below by `lb` sums to at least its
length times `lb`. -/
theorem sliceSum_ge_mul (H : ℕ) (f : Fin H → ℚ) (lb : ℚ)
    (hf : ∀ t, lb ≤ f t) (a b : ℕ) (hab : a ≤ b) (hbH : b ≤ H) :
    ((b - a : ℕ) : ℚ) * lb ≤ sliceSum H f a b := by
  have h := sliceSum_ge_mul_aux H f lb hf (b - a) a (by omega)
  rw [show a + (b - a) = b by omega] at h
  exact h

/-- Helper: a slice of variables bounded above by `ub` sums to at most its
length times `ub` (auxiliary induction form). -/
theorem sliceSum_le_mul_aux (H : ℕ) (f : Fin H → ℚ) (ub : ℚ)
    (hf : ∀ t, f t ≤ ub) :
    ∀ d a, a + d ≤ H → sliceSum H f a (a + d) ≤ ((d : ℕ) : ℚ) * ub := by
  intro d
  induction d with
  | zero =>
    intro a ha
    rw [Nat.add_zero, sliceSum_zero_of_ge H f a a (le_refl a)]
    simp
  | succ d ih =>
    intro a ha
    have hsplit : sliceSum H f a (a + (d + 1)) =
        sliceSum H f a (a + d) + sliceSum H f (a + d) (a + d + 1) :=
      sliceSum_split H f a (a + d) (a + d + 1) (by omega) (by omega)
    rw [hsplit, sliceSum_single H f (a + d) (by omega)]
    have h1 := ih a (by omega)
    have h2 := hf ⟨a + d, by omega⟩
    push_cast
    push_cast at h1
    linarith

/-- Helper: a slice of variables bounded above by `ub` sums to at most its
length times `ub`. -/
theorem sliceSum_le_mul (H : ℕ) (f : Fin H → ℚ) (ub : ℚ)
    (hf : ∀ t, f t ≤ ub) (a b : ℕ) (hab : a ≤ b) (hbH : b ≤ H) :
    sliceSum H f a b ≤ ((b - a : ℕ) : ℚ) * ub := by
  have h := sliceSum_le_mul_aux H f ub hf (b - a) a (by omega)
  rw [show a + (b - a) = b by omega] at h
  exact h

/-- Helper: the sum of the first `k` entries of the required-energy list
`[Curt] * max_low ++ [Nom] * min_full`. -/
theorem requiredTakeSum (ml mf k : ℕ) (C N : ℚ) (hk : k ≤ ml + mf) :
    ((List.replicate ml C ++ List.replicate mf N).take k).sum =
      ((min k ml : ℕ) : ℚ) * C + ((k - min k ml : ℕ) : ℚ) * N := by
  rw [List.take_append_eq_append_take, List.sum_append, List.length_replicate,
    List.take_replicate, List.take_replicate, List.sum_replicate,
    List.sum_replicate, nsmul_eq_mul, nsmul_eq_mul]
  have hm : min (k - ml) mf = k - min k ml := by omega
  rw [hm]

/-- Helper: at simulation timestep 0 every overlap window reaches before the
simulation start, so the relaxed updater's RHS is the truncated
required-energy sum, with nothing already delivered. -/
theorem convexRequiredRhs_at_zero (ml mf : ℕ) (C N : ℚ) (sched : ℕ → ℚ)
    (overlap : ℕ) (h2 : overlap < mf + ml) :
    convexRequiredRhs ml mf C N sched 0 overlap =
      ((min overlap ml : ℕ) : ℚ) * C +
        ((overlap - min overlap ml : ℕ) : ℚ) * N := by
  simp only [convexRequiredRhs]
  have hneg : ((0 : ℕ) : ℤ) - (((mf + ml : ℕ) : ℤ) - (overlap : ℤ)) < 0 := by
    push_cast
    omega
  rw [if_pos hneg, if_pos hneg]
  have harg : (((List.replicate ml C ++ List.replicate mf N).length : ℤ) +
      (((0 : ℕ) : ℤ) - (((mf + ml : ℕ) : ℤ) - (overlap : ℤ)))).toNat =
      overlap := by
    rw [List.length_append, List.length_replicate, List.length_replicate]
    omega
  rw [harg, requiredTakeSum ml mf overlap C N (by omega), Finset.Ico_self,
    Finset.sum_empty, sub_zero]

/-- C7 (counterexample): for `max_low = 1`, `min_full = 3`, window length
`H = 2` (so `min_full + max_low > op_horizon`), nominal 10, curtailed 2, the
relaxed updater at simulation timestep 0 writes a bound that excludes the
all-curtailed schedule `p = (2, 2)`, although that schedule satisfies the
variable bounds and all (here: zero) in-window constraints — so the claim
that no restriction is imposed at `t = 0` fails. -/
theorem convexUpdaterRestrictsAtZero :
    boundsHold 2 2 10 (fun _ => 2) ∧
    convexWinHold 2 1 3 10 2 (fun _ => 2) ∧
    ¬ prevPowerHold 2
        (updatePrevPower 1 3 2 10 (fun _ => 0) 0
          ((clPopulate 10 2 (some (1, 3)) 2 false).prevPowerRhs.length))
        (fun _ => 2) := by
  refine ⟨fun t => ⟨le_refl 2, by norm_num⟩, fun t ht => absurd ht (by omega),
    fun h => ?_⟩
  have hv := h ⟨1, by simp [updatePrevPower, clPopulate]⟩
  have hget : (updatePrevPower 1 3 2 10 (fun _ => 0) 0
      ((clPopulate 10 2 (some (1, 3)) 2 false).prevPowerRhs.length)).get
        ⟨1, by simp [updatePrevPower, clPopulate]⟩ =
      ((convexRequiredRhs 1 3 2 10 (fun _ => 0) 0 2 : ℚ) : WithBot ℚ) := rfl
  rw [hget, WithBot.coe_le_coe,
    convexRequiredRhs_at_zero 1 3 2 10 (fun _ => 0) 2 (by omega)] at hv
  have hs : sliceSum 2 (fun _ : Fin 2 => (2 : ℚ)) 0 (1 + 1) = 4 := by
    norm_num [sliceSum, Fin.sum_univ_two]
  rw [hs] at hv
  norm_num at hv

/-- C7 (amended): at simulation timestep 0 no history constraint restricts
the feasible region, with a proviso for the relaxed encoding: (1) the
integer-mode updater touches nothing at `timestep = 0`; (2) the pre-created
`constr_previous_state` bounds (`-inf`) restrict nothing; (3) a
`constr_previous_start` bound of `+inf` restricts nothing; (4) in the relaxed
encoding, provided `min_full + max_low ≤ op_horizon`, every bound the updater
writes at `timestep = 0` is implied by the variable bounds together with the
in-window sliding constraints.  (When `min_full + max_low > op_horizon` the
rewritten bound can restrict the feasible region — see the counterexample.) -/
theorem curtailableLoadTimestepZero :
    (∀ (ml mf H : ℕ) (sched : ℕ → Bool) (prevRhs : List (WithBot ℚ))
        (startRhs : Option (WithTop ℚ)),
        updatePrevState ml mf H sched 0 prevRhs startRhs =
          some (prevRhs, startRhs)) ∧
    (∀ (H c : ℕ) (state : Fin H → Bool),
        prevStateHold H (List.replicate c ⊥) state) ∧
    (∀ (H mf : ℕ) (state : Fin H → Bool),
        minFullStartHold H mf (some ⊤) state) ∧
    (∀ (ml mf H : ℕ) (C N : ℚ) (sched : ℕ → ℚ) (pEl : Fin H → ℚ),
        mf + ml ≤ H →
        boundsHold H C N pEl →
        convexWinHold H ml mf N C pEl →
        prevPowerHold H
          (updatePrevPower ml mf C N sched 0 (min (ml + mf - 1) H)) pEl) := by
  refine ⟨?_, ?_, ?_, ?_⟩
  · intro ml mf H sched prevRhs startRhs
    simp [updatePrevState]
  · intro H c state j
    rw [List.get_replicate]
    exact bot_le
  · intro H mf state r hr
    obtain rfl : (⊤ : WithTop ℚ) = r := Option.some_injective _ hr
    exact le_top
  · intro ml mf H C N sched pEl hW hb hw j
    have hlen : (updatePrevPower ml mf C N sched 0
        (min (ml + mf - 1) H)).length = min (ml + mf - 1) H := by
      simp [updatePrevPower]
    have hj : (j : ℕ) < min (ml + mf - 1) H := by
      have h2 := j.2
      omega
    have hget : (updatePrevPower ml mf C N sched 0
        (min (ml + mf - 1) H)).get j =
        ((convexRequiredRhs ml mf C N sched 0 ((j : ℕ) + 1) : ℚ) :
          WithBot ℚ) := by
      simp [updatePrevPower]
    rw [hget, WithBot.coe_le_coe,
      convexRequiredRhs_at_zero ml mf C N sched ((j : ℕ) + 1) (by omega)]
    rcases le_or_lt ((j : ℕ) + 1) ml with hle | hgt
    · have hmin : min ((j : ℕ) + 1) ml = (j : ℕ) + 1 := by omega
      rw [hmin]
      have hge : (((j : ℕ) + 1 : ℕ) : ℚ) * C ≤
          sliceSum H pEl 0 ((j : ℕ) + 1) :=
        sliceSum_ge_mul H pEl C (fun t => (hb t).1) 0 ((j : ℕ) + 1)
          (by omega) (by omega)
      have hz : ((j : ℕ) + 1 - ((j : ℕ) + 1) : ℕ) = 0 := by omega
      rw [hz]
      push_cast
      push_cast at hge
      linarith
    · have hmin : min ((j : ℕ) + 1) ml = ml := by omega
      rw [hmin]
      have hsplit : sliceSum H pEl 0 (mf + ml) =
          sliceSum H pEl 0 ((j : ℕ) + 1) +
            sliceSum H pEl ((j : ℕ) + 1) (mf + ml) :=
        sliceSum_split H pEl 0 ((j : ℕ) + 1) (mf + ml) (by omega) (by omega)
      have hup : sliceSum H pEl ((j : ℕ) + 1) (mf + ml) ≤
          ((mf + ml - ((j : ℕ) + 1) : ℕ) : ℚ) * N :=
        sliceSum_le_mul H pEl N (fun t => (hb t).2) ((j : ℕ) + 1) (mf + ml)
          (by omega) (by omega)
      have h0H : (0 : ℕ) < H := by omega
      have hwin0 := hw ⟨0, h0H⟩ (show (0 : ℕ) + (mf + ml) ≤ H by omega)
      rw [show ((⟨0, h0H⟩ : Fin H) : ℕ) = 0 from rfl, Nat.zero_add] at hwin0
      have c2 : ((mf + ml - ((j : ℕ) + 1) : ℕ) : ℚ) =
          (mf : ℚ) + ml - ((j : ℚ) + 1) := by
        rw [Nat.cast_sub (by omega)]
        push_cast
        ring
      have c3 : (((j : ℕ) + 1 - ml : ℕ) : ℚ) = ((j : ℚ) + 1) - ml := by
        rw [Nat.cast_sub (by omega)]
        push_cast
        ring
      rw [c2] at hup
      rw [c3]
      ring_nf at hup hwin0 hsplit ⊢
      linarith

/-- Witness for C7: a concrete relaxed configuration with
`min_full + max_low = op_horizon` (`max_low = 2`, `min_full = 2`, `H = 4`,
nominal 10, curtailed 2) and the all-nominal schedule. -/
theorem curtailableLoadTimestepZero_witness :
    (updatePrevState 1 1 4 (fun _ => false) 0 [⊥] (some ⊤) =
      some ([⊥], some ⊤)) ∧
    prevStateHold 4 (List.replicate 2 ⊥) (fun _ => false) ∧
    minFullStartHold 4 2 (some ⊤) (fun _ => false) ∧
    (2 + 2 ≤ 4 ∧
      prevPowerHold 4
        (updatePrevPower 2 2 2 10 (fun _ => 0) 0 (min (2 + 2 - 1) 4))
        (fun _ => 10)) := by
  refine ⟨curtailableLoadTimestepZero.1 1 1 4 (fun _ => false) [⊥] (some ⊤),
    curtailableLoadTimestepZero.2.1 4 2 (fun _ => false),
    curtailableLoadTimestepZero.2.2.1 4 2 (fun _ => false),
    by omega, ?_⟩
  refine curtailableLoadTimestepZero.2.2.2 2 2 4 2 10 (fun _ => 0)
    (fun _ => 10) (by omega) (fun t => ⟨by norm_num, le_refl 10⟩) ?_
  intro t ht
  have hge : ((((t : ℕ) + (2 + 2)) - (t : ℕ) : ℕ) : ℚ) * 10 ≤
      sliceSum 4 (fun _ => (10 : ℚ)) (t : ℕ) ((t : ℕ) + (2 + 2)) :=
    sliceSum_ge_mul 4 (fun _ => (10 : ℚ)) 10 (fun u => le_refl 10) (t : ℕ)
      ((t : ℕ) + (2 + 2)) (by omega) (by omega)
  rw [show (((t : ℕ) + (2 + 2)) - (t : ℕ) : ℕ) = 4 by omega] at hge
  push_cast at hge
  norm_num
  linarith

end PyCity
